import Mathlib

/-!
# Verification of the Q&A knowledge-base manager

A shallow embedding of the core of `src/app.py`: the user store
(registration / verification), the Q&A store (add / edit / delete), the
per-user visibility filter, search, and the four exporters, together with
theorems settling the specification's claims about them.

Strings are modelled as `List Char`; the Python dictionaries (`users.yaml`
and `qa_data.json` are JSON/YAML objects, i.e. ordered key-value maps) are
modelled as association lists in insertion order.
-/

namespace QnaApp

/-- Strings of the program, as lists of characters. -/
abbrev Str := List Char

/-- One Q&A entry, as created by the "Add Q&A" handler (`app.py`,
`new_entry`): question, answer, timestamp, and the creating user. -/
structure QAEntry where
  question : Str
  answer : Str
  timestamp : Str
  created_by : Str
deriving DecidableEq, Repr

/-- The Q&A store `st.session_state.subjects`: subject name mapped to the
ordered list of its entries (a JSON object, kept in insertion order). -/
abbrev Store := List (Str × List QAEntry)

/-- One record of the user store (`users.yaml`): the password hash, the
optional email, and the creation timestamp. -/
structure UserRecord where
  password : Str
  email : Option Str
  created_at : Str
deriving DecidableEq, Repr

/-- The user store: username mapped to its record. -/
abbrev Users := List (Str × UserRecord)

/-- Dictionary lookup on an association list: the first binding of the key,
as Python `d[k]` / `k in d` read it. -/
def lookupKey {α : Type} : List (Str × α) → Str → Option α
  | [], _ => none
  | p :: t, k => if p.1 = k then some p.2 else lookupKey t k

/-- `register_user` (`app.py` lines 54-64), with the password-hash function
and the current timestamp passed explicitly: if the username is already a
key of the store the call returns `false` and the store is untouched;
otherwise the new record is inserted (a fresh dictionary key appends in
insertion order) and the call returns `true`. -/
def register_user (hashF : Str → Str) (now : Str) (users : Users)
    (username password : Str) (email : Option Str) : Bool × Users :=
  if (lookupKey users username).isSome then
    (false, users)
  else
    (true, users ++ [(username, ⟨hashF password, email, now⟩)])

/-- `verify_user` (`app.py` lines 66-70): true iff the username is a key of
the user store and the stored hash equals the hash of the supplied
password. -/
def verify_user (hashF : Str → Str) (users : Users)
    (username password : Str) : Bool :=
  match lookupKey users username with
  | some r => decide (r.password = hashF password)
  | none => false

/-- `get_user_data` (`app.py` lines 134-141): for each subject, keep the
entries whose `created_by` equals the logged-in user, and keep the subject
only when that filtered list is non-empty. -/
def get_user_data : Store → Str → Store
  | [], _ => []
  | p :: t, user =>
    let uq := p.2.filter (fun qa => decide (qa.created_by = user))
    if uq.isEmpty then get_user_data t user
    else (p.1, uq) :: get_user_data t user

/-- All (subject, entry) pairs of a store, subjects in store order and
entries in list order. -/
def storePairs (store : Store) : List (Str × QAEntry) :=
  store.flatMap (fun p => p.2.map (fun e => (p.1, e)))

/-- The `add_qa` save handler (`app.py` lines 167-181): append a fresh
entry to the subject's list, creating the subject at the end of the store
when absent. -/
def add_qa (store : Store) (subject question answer now user : Str) : Store :=
  if (lookupKey store subject).isSome then
    store.map (fun p =>
      if p.1 = subject then (p.1, p.2 ++ [⟨question, answer, now, user⟩]) else p)
  else
    store ++ [(subject, [⟨question, answer, now, user⟩])]

/-- The match used by both the delete and the edit handlers (`app.py`
lines 230-233 and 259-262): exact equality of question, answer and
creating user. -/
def matchesEntry (e : QAEntry) (q a user : Str) : Bool :=
  decide (e.question = q ∧ e.answer = a ∧ e.created_by = user)

/-- The scan-and-delete loop of the delete handler (`app.py` lines
230-237): remove the first matching entry and stop (`break`). -/
def deleteFirstMatch : List QAEntry → Str → Str → Str → List QAEntry
  | [], _, _, _ => []
  | e :: t, q, a, user =>
    if matchesEntry e q a user then t else e :: deleteFirstMatch t q a user

/-- The delete handler (`app.py` lines 227-237): delete the first entry of
the selected subject's list matching (question, answer, current user);
only that subject's list is touched, and the subject key stays. -/
def delete_qa (store : Store) (subject q a user : Str) : Store :=
  store.map (fun p =>
    if p.1 = subject then (p.1, deleteFirstMatch p.2 q a user) else p)

/-- The in-place field assignment of the edit handler (`app.py` lines
263-265): question, answer and timestamp are replaced, `created_by` is
left as it was. -/
def editEntry (e : QAEntry) (nq na nts : Str) : QAEntry :=
  { e with question := nq, answer := na, timestamp := nts }

/-- The scan-and-update loop of the edit handler (`app.py` lines 259-267):
update the first matching entry in place and stop (`break`); when nothing
matches the list is returned as it was. -/
def editFirstMatch : List QAEntry → Str → Str → Str → Str → Str → Str → List QAEntry
  | [], _, _, _, _, _, _ => []
  | e :: t, oq, oa, user, nq, na, nts =>
    if matchesEntry e oq oa user then editEntry e nq na nts :: t
    else e :: editFirstMatch t oq oa user nq na nts

/-- The edit handler (`app.py` lines 255-270): update the first matching
entry of the edited subject's list; every other subject is untouched. -/
def edit_qa (store : Store) (subject oq oa user nq na nts : Str) : Store :=
  store.map (fun p =>
    if p.1 = subject then (p.1, editFirstMatch p.2 oq oa user nq na nts) else p)

/-- Python `str.lower`, restricted to the ASCII case mapping. -/
def lowerStr (s : Str) : Str := s.map Char.toLower

/-- Whether `p` is a prefix of the second list. -/
def prefOf : Str → Str → Bool
  | [], _ => true
  | _ :: _, [] => false
  | a :: p, b :: s => a = b && prefOf p s

/-- Python's substring test `needle in hay`: some suffix of `hay` starts
with `needle` (the empty needle is always found). -/
def containsSub : Str → Str → Bool
  | [], needle => needle.isEmpty
  | c :: t, needle => prefOf needle (c :: t) || containsSub t needle

/-- One row of the search-results / CSV table (`app.py` lines 288-293 and
338-343): subject, question, answer and date. -/
structure ResultRow where
  subject : Str
  question : Str
  answer : Str
  date : Str
deriving DecidableEq, Repr

/-- The match condition of `search_qa` (`app.py` lines 286-287):
case-insensitive substring match of the term against question or answer. -/
def entryMatches (term : Str) (qa : QAEntry) : Bool :=
  containsSub (lowerStr qa.question) (lowerStr term) ||
    containsSub (lowerStr qa.answer) (lowerStr term)

/-- `search_qa` (`app.py` lines 281-293): over the user's visible data, in
subject order then list order, collect the rows whose entry matches the
term. -/
def search_qa (store : Store) (user term : Str) : List ResultRow :=
  (get_user_data store user).flatMap (fun p =>
    (p.2.filter (entryMatches term)).map
      (fun qa => ⟨p.1, qa.question, qa.answer, qa.timestamp⟩))

/-- The export subject selection (`app.py` line 332): the sub-map of the
user's visible data at the selected subjects, in selection order. -/
def export_selection (userData : Store) (selected : List Str) : Store :=
  selected.filterMap (fun s => (lookupKey userData s).map (fun l => (s, l)))

/-- The CSV export rows (`app.py` lines 334-343): one row per entry of the
selected data, subjects in order, entries in list order. -/
def csv_rows (ed : Store) : List ResultRow :=
  ed.flatMap (fun p =>
    p.2.map (fun qa => ⟨p.1, qa.question, qa.answer, qa.timestamp⟩))

/-- The fixed first line of the Markdown export (`app.py` line 375). -/
def mdTitle (user : Str) : Str :=
  "# Q&A Export for ".toList ++ user ++ "\n\n".toList

/-- The per-subject heading of the Markdown export (`app.py` line 377). -/
def mdSubjHeader (s : Str) : Str := "## ".toList ++ s ++ "\n\n".toList

/-- The per-entry block of the Markdown export (`app.py` lines 379-381). -/
def mdEntryBlock (qa : QAEntry) : Str :=
  "### ".toList ++ qa.question ++ "\n\n".toList ++ qa.answer ++ "\n\n".toList
    ++ "Date: ".toList ++ qa.timestamp ++ "\n\n---\n\n".toList

/-- The Markdown export (`app.py` lines 374-381), as the source builds it:
successive `+=` appends while looping over subjects and entries. -/
def md_content (user : Str) (sel : Store) : Str :=
  sel.foldl (fun acc p =>
    p.2.foldl (fun acc2 qa => acc2 ++ mdEntryBlock qa) (acc ++ mdSubjHeader p.1))
    (mdTitle user)

/-- One output cell of the PDF as `generate_pdf` emits them: the centered
header cell, a vertical spacer (`pdf.ln`), a bold subject cell, or a
normal-font text cell. -/
inductive PdfCell where
  | header (s : Str)
  | spacer
  | subjCell (s : Str)
  | textCell (s : Str)
deriving DecidableEq, Repr

/-- The literal prefix of a question cell (`app.py` line 88). -/
def qLinePre : Str := "Q: ".toList

/-- The literal prefix of an answer cell (`app.py` line 89). -/
def aLinePre : Str := "A: ".toList

/-- The literal prefix of a date cell (`app.py` line 90). -/
def dLinePre : Str := "Date: ".toList

/-- The text of the centered header cell (`app.py` line 79). -/
def pdfTitle (user : Str) : Str := "Q&A Export for ".toList ++ user

/-- The four cells one entry contributes to the PDF (`app.py` lines
87-91): question, answer, date and a spacer. -/
def entryCells (qa : QAEntry) : List PdfCell :=
  [PdfCell.textCell (qLinePre ++ qa.question),
   PdfCell.textCell (aLinePre ++ qa.answer),
   PdfCell.textCell (dLinePre ++ qa.timestamp),
   PdfCell.spacer]

/-- `generate_pdf` (`app.py` lines 73-95), modelled as the sequence of
cells it emits: the header and a spacer, then per subject a bold subject
cell followed by each entry's cells. -/
def generate_pdf (data : Store) (user : Str) : List PdfCell :=
  PdfCell.header (pdfTitle user) :: PdfCell.spacer ::
    data.flatMap (fun p => PdfCell.subjCell p.1 :: p.2.flatMap entryCells)

/-- Strip a literal prefix from a string, returning the remainder. -/
def stripPre : Str → Str → Option Str
  | [], s => some s
  | _ :: _, [] => none
  | c :: p, d :: s => if c = d then stripPre p s else none

/-- Read one entry back from four consecutive PDF cells. -/
def readEntryCells : PdfCell → PdfCell → PdfCell → PdfCell →
    Option (Str × Str × Str)
  | PdfCell.textCell tq, PdfCell.textCell ta, PdfCell.textCell td,
      PdfCell.spacer =>
    match stripPre qLinePre tq, stripPre aLinePre ta, stripPre dLinePre td with
    | some q, some a, some d => some (q, a, d)
    | _, _, _ => none
  | _, _, _, _ => none

/-- Read back a maximal run of entry-cell groups. -/
def readEntries : List PdfCell → List (Str × Str × Str) × List PdfCell
  | c1 :: c2 :: c3 :: c4 :: rest =>
    match readEntryCells c1 c2 c3 c4 with
    | some e =>
      let r := readEntries rest
      (e :: r.1, r.2)
    | none => ([], c1 :: c2 :: c3 :: c4 :: rest)
  | l => ([], l)

/-- Read back the per-subject sections of a PDF cell stream; the fuel
bounds the number of subjects. -/
def readSubjects : Nat → List PdfCell → List (Str × List (Str × Str × Str))
  | 0, _ => []
  | _, [] => []
  | Nat.succ fuel, PdfCell.subjCell s :: rest =>
    let r := readEntries rest
    (s, r.1) :: readSubjects fuel r.2
  | Nat.succ _, _ => []

/-- Recover the subject-grouped (question, answer, date) content from a
PDF cell stream. -/
def pdfExtract (cells : List PdfCell) : List (Str × List (Str × Str × Str)) :=
  match cells with
  | PdfCell.header _ :: PdfCell.spacer :: rest => readSubjects cells.length rest
  | _ => []

/-- The subject-grouped (question, answer, timestamp) projection of a
store: what the PDF renders, with subjects and entry order preserved. -/
def projStore (sel : Store) : List (Str × List (Str × Str × Str)) :=
  sel.map (fun p =>
    (p.1, p.2.map (fun qa => (qa.question, qa.answer, qa.timestamp))))

/-! ## JSON serialization of the store

`export_qa`'s JSON branch (`app.py` lines 353-360) hands the selected
sub-map to `json.dumps`; re-importing goes through `json.load`. The
serializer and parser below model that pair on the store's shape: objects
with the store's keys in insertion order, string values with quote and
backslash escaped (whitespace and the additional ASCII escapes of
`json.dumps` are immaterial to the round-trip and are not emitted). -/

/-- The JSON double-quote character. -/
def quoteC : Char := Char.ofNat 34

/-- The JSON backslash escape character. -/
def backC : Char := Char.ofNat 92

/-- Left brace. -/
def lbrace : Char := Char.ofNat 123

/-- Right brace. -/
def rbrace : Char := Char.ofNat 125

/-- Left bracket. -/
def lbrack : Char := Char.ofNat 91

/-- Right bracket. -/
def rbrack : Char := Char.ofNat 93

/-- Comma. -/
def commaC : Char := Char.ofNat 44

/-- Colon. -/
def colonC : Char := Char.ofNat 58

/-- Escape one character of a JSON string body. -/
def escChar (c : Char) : Str :=
  if c = quoteC ∨ c = backC then [backC, c] else [c]

/-- Escape a JSON string body. -/
def escStr (s : Str) : Str := s.flatMap escChar

/-- Serialize a string as a JSON string literal. -/
def serStr (s : Str) : Str := quoteC :: (escStr s ++ [quoteC])

/-- The `question` key. -/
def keyQuestion : Str := "question".toList

/-- The `answer` key. -/
def keyAnswer : Str := "answer".toList

/-- The `timestamp` key. -/
def keyTimestamp : Str := "timestamp".toList

/-- The `created_by` key. -/
def keyCreatedBy : Str := "created_by".toList

/-- Opening of an entry object up to the first value. -/
def segQ : Str := [lbrace] ++ serStr keyQuestion ++ [colonC]

/-- Separator before the `answer` value. -/
def segA : Str := [commaC] ++ serStr keyAnswer ++ [colonC]

/-- Separator before the `timestamp` value. -/
def segT : Str := [commaC] ++ serStr keyTimestamp ++ [colonC]

/-- Separator before the `created_by` value. -/
def segC : Str := [commaC] ++ serStr keyCreatedBy ++ [colonC]

/-- Serialize one entry as a JSON object, keys in insertion order
(`app.py` lines 174-179). -/
def serEntry (e : QAEntry) : Str :=
  segQ ++ serStr e.question ++ segA ++ serStr e.answer ++ segT ++
    serStr e.timestamp ++ segC ++ serStr e.created_by ++ [rbrace]

/-- Serialize the comma-separated items of an entry array. -/
def serEntriesTail : List QAEntry → Str
  | [] => []
  | [e] => serEntry e
  | e :: t => serEntry e ++ [commaC] ++ serEntriesTail t

/-- Serialize an entry list as a JSON array. -/
def serEntryList (l : List QAEntry) : Str :=
  [lbrack] ++ serEntriesTail l ++ [rbrack]

/-- Serialize the comma-separated items of the store object. -/
def serStoreTail : Store → Str
  | [] => []
  | [p] => serStr p.1 ++ [colonC] ++ serEntryList p.2
  | p :: t => serStr p.1 ++ [colonC] ++ serEntryList p.2 ++ [commaC] ++
      serStoreTail t

/-- Serialize a store as the JSON object `json.dumps` produces for it. -/
def serializeStore (st : Store) : Str := [lbrace] ++ serStoreTail st ++ [rbrace]

/-- The JSON export payload (`app.py` lines 353-360). -/
def json_export (ed : Store) : Str := serializeStore ed

/-- Parse a JSON string body up to its closing quote, undoing escapes. -/
def parseStrBody : Str → Option (Str × Str)
  | [] => none
  | c :: rest =>
    if c = quoteC then some ([], rest)
    else if c = backC then
      match rest with
      | [] => none
      | d :: rest2 =>
        match parseStrBody rest2 with
        | some p => some (d :: p.1, p.2)
        | none => none
    else
      match parseStrBody rest with
      | some p => some (c :: p.1, p.2)
      | none => none

/-- Parse a JSON string literal. -/
def parseStr : Str → Option (Str × Str)
  | [] => none
  | c :: rest => if c = quoteC then parseStrBody rest else none

/-- Parse one entry object. -/
def parseEntry (s : Str) : Option (QAEntry × Str) := do
  let s ← stripPre segQ s
  let (q, s) ← parseStr s
  let s ← stripPre segA s
  let (a, s) ← parseStr s
  let s ← stripPre segT s
  let (ts, s) ← parseStr s
  let s ← stripPre segC s
  let (cb, s) ← parseStr s
  let s ← stripPre [rbrace] s
  some (⟨q, a, ts, cb⟩, s)

/-- Parse the comma-separated items of a non-empty entry array, up to and
including the closing bracket; the fuel bounds the item count. -/
def parseEntriesTail : Nat → Str → Option (List QAEntry × Str)
  | 0, _ => none
  | Nat.succ fuel, s =>
    match parseEntry s with
    | none => none
    | some (e, s1) =>
      match s1 with
      | [] => none
      | c :: s2 =>
        if c = rbrack then some ([e], s2)
        else if c = commaC then
          match parseEntriesTail fuel s2 with
          | some (l, s3) => some (e :: l, s3)
          | none => none
        else none

/-- Parse an entry array. -/
def parseEntryList (fuel : Nat) : Str → Option (List QAEntry × Str)
  | c :: d :: rest2 =>
    if c = lbrack then
      if d = rbrack then some ([], rest2)
      else parseEntriesTail fuel (d :: rest2)
    else none
  | _ => none

/-- Parse the comma-separated items of a non-empty store object, up to and
including the closing brace; the fuel bounds the subject count. -/
def parseStoreTail : Nat → Str → Option (Store × Str)
  | 0, _ => none
  | Nat.succ fuel, s =>
    match parseStr s with
    | none => none
    | some (subj, s1) =>
      match s1 with
      | [] => none
      | c :: s2 =>
        if c = colonC then
          match parseEntryList (s2.length + 1) s2 with
          | none => none
          | some (l, s3) =>
            match s3 with
            | [] => none
            | d :: s4 =>
              if d = rbrace then some ([(subj, l)], s4)
              else if d = commaC then
                match parseStoreTail fuel s4 with
                | some (st, s5) => some ((subj, l) :: st, s5)
                | none => none
              else none
        else none

/-- Parse a store object. -/
def parseStoreOuter : Str → Option (Store × Str)
  | c :: d :: rest2 =>
    if c = lbrace then
      if d = rbrace then some ([], rest2)
      else parseStoreTail (rest2.length + 2) (d :: rest2)
    else none
  | _ => none

/-- Parse a complete JSON document holding a store, as `json.load` reads
the export back. -/
def parseStore (s : Str) : Option Store :=
  match parseStoreOuter s with
  | some (st, []) => some st
  | _ => none

/-! ## Helper lemmas -/

theorem lookupKey_map_self {f : List QAEntry → List QAEntry} (store : Store)
    (s : Str) :
    lookupKey (store.map (fun p => if p.1 = s then (p.1, f p.2) else p)) s =
      (lookupKey store s).map f := by
  induction store with
  | nil => rfl
  | cons p t ih =>
    by_cases hp : p.1 = s <;> simp [lookupKey, hp, ih]

theorem lookupKey_map_other {f : List QAEntry → List QAEntry} (store : Store)
    {s s' : Str} (hne : s' ≠ s) :
    lookupKey (store.map (fun p => if p.1 = s then (p.1, f p.2) else p)) s' =
      lookupKey store s' := by
  induction store with
  | nil => rfl
  | cons p t ih =>
    by_cases hp : p.1 = s
    · have hss : s ≠ s' := fun h => hne h.symm
      simp [lookupKey, hp, hss, ih]
    · by_cases hp' : p.1 = s' <;> simp [lookupKey, hp, hp', hne, ih]

theorem deleteFirstMatch_split (pre post : List QAEntry) (m : QAEntry)
    (q a u : Str) (hpre : ∀ e ∈ pre, matchesEntry e q a u = false)
    (hm : matchesEntry m q a u = true) :
    deleteFirstMatch (pre ++ m :: post) q a u = pre ++ post := by
  induction pre with
  | nil => simp [deleteFirstMatch, hm]
  | cons e t ih =>
    have he : matchesEntry e q a u = false := hpre e (by simp)
    simp only [List.cons_append, deleteFirstMatch, he, Bool.false_eq_true,
      if_false]
    exact congrArg (e :: ·) (ih fun x hx => hpre x (by simp [hx]))

theorem editFirstMatch_split (pre post : List QAEntry) (m : QAEntry)
    (oq oa u nq na nts : Str)
    (hpre : ∀ e ∈ pre, matchesEntry e oq oa u = false)
    (hm : matchesEntry m oq oa u = true) :
    editFirstMatch (pre ++ m :: post) oq oa u nq na nts =
      pre ++ editEntry m nq na nts :: post := by
  induction pre with
  | nil => simp [editFirstMatch, hm]
  | cons e t ih =>
    have he : matchesEntry e oq oa u = false := hpre e (by simp)
    simp only [List.cons_append, editFirstMatch, he, Bool.false_eq_true,
      if_false]
    exact congrArg (e :: ·) (ih fun x hx => hpre x (by simp [hx]))

theorem editFirstMatch_nomatch (l : List QAEntry) (oq oa u nq na nts : Str)
    (h : ∀ e ∈ l, matchesEntry e oq oa u = false) :
    editFirstMatch l oq oa u nq na nts = l := by
  induction l with
  | nil => rfl
  | cons e t ih =>
    have he : matchesEntry e oq oa u = false := h e (by simp)
    simp only [editFirstMatch, he, Bool.false_eq_true, if_false]
    exact congrArg (e :: ·) (ih fun x hx => h x (by simp [hx]))

theorem editFirstMatch_createdBy (l : List QAEntry) (oq oa u nq na nts : Str) :
    (editFirstMatch l oq oa u nq na nts).map (fun e => e.created_by) =
      l.map (fun e => e.created_by) := by
  induction l with
  | nil => rfl
  | cons e t ih =>
    by_cases he : matchesEntry e oq oa u
    · simp [editFirstMatch, he, editEntry]
    · simp [editFirstMatch, he, ih]

theorem storePairs_cons (p : Str × List QAEntry) (t : Store) :
    storePairs (p :: t) = p.2.map (fun e => (p.1, e)) ++ storePairs t := by
  simp [storePairs]

theorem storePairs_get_user_data (store : Store) (u : Str) :
    storePairs (get_user_data store u) =
      (storePairs store).filter (fun pe => decide (pe.2.created_by = u)) := by
  induction store with
  | nil => rfl
  | cons p t ih =>
    have hfm : (p.2.map (fun e => (p.1, e))).filter
        (fun pe => decide (pe.2.created_by = u)) =
        (p.2.filter (fun e => decide (e.created_by = u))).map
          (fun e => (p.1, e)) := by
      rw [List.filter_map]
      rfl
    by_cases hq : (p.2.filter (fun qa => decide (qa.created_by = u))).isEmpty
    · have hnil : p.2.filter (fun qa => decide (qa.created_by = u)) = [] :=
        List.isEmpty_iff.mp hq
      rw [storePairs_cons, List.filter_append, hfm, hnil]
      simp [get_user_data, hq, ih]
    · rw [storePairs_cons, List.filter_append, hfm, ← ih]
      simp [get_user_data, hq, storePairs_cons]

theorem map_if_eq_self {f : List QAEntry → List QAEntry} (t : Store) {s : Str}
    (h : ∀ p ∈ t, p.1 ≠ s) :
    t.map (fun p => if p.1 = s then (p.1, f p.2) else p) = t := by
  induction t with
  | nil => rfl
  | cons p t ih =>
    simp only [List.map_cons]
    rw [if_neg (h p (by simp)), ih (fun p' hp' => h p' (by simp [hp']))]

theorem edit_qa_nomatch (store : Store) (s oq oa u nq na nts : Str)
    (hnd : (store.map Prod.fst).Nodup) (l : List QAEntry)
    (hl : lookupKey store s = some l)
    (h : ∀ e ∈ l, matchesEntry e oq oa u = false) :
    edit_qa store s oq oa u nq na nts = store := by
  induction store with
  | nil => rfl
  | cons p t ih =>
    rw [List.map_cons, List.nodup_cons] at hnd
    simp only [lookupKey] at hl
    simp only [edit_qa, List.map_cons]
    by_cases hp : p.1 = s
    · rw [if_pos hp] at hl
      have hl2 : p.2 = l := Option.some.inj hl
      have hno : editFirstMatch p.2 oq oa u nq na nts = p.2 :=
        editFirstMatch_nomatch _ _ _ _ _ _ _ (fun e he => h e (hl2 ▸ he))
      have htail := map_if_eq_self
        (f := fun x => editFirstMatch x oq oa u nq na nts) (s := s) t
        (fun p' hp' hps => hnd.1 (by
          rw [hp, ← hps]
          exact List.mem_map_of_mem Prod.fst hp'))
      rw [if_pos hp, hno, htail, Prod.mk.eta]
    · rw [if_neg hp] at hl
      rw [if_neg hp]
      exact congrArg (p :: ·) (ih hnd.2 hl)

theorem storePairs_edit_createdBy (store : Store) (s oq oa u nq na nts : Str) :
    (storePairs (edit_qa store s oq oa u nq na nts)).map
        (fun pe => pe.2.created_by) =
      (storePairs store).map (fun pe => pe.2.created_by) := by
  induction store with
  | nil => rfl
  | cons p t ih =>
    simp only [edit_qa, List.map_cons] at ih ⊢
    rw [show ((if p.1 = s then (p.1, editFirstMatch p.2 oq oa u nq na nts)
        else p) :: t.map (fun p =>
          if p.1 = s then (p.1, editFirstMatch p.2 oq oa u nq na nts) else p)) =
        [if p.1 = s then (p.1, editFirstMatch p.2 oq oa u nq na nts) else p] ++
          t.map (fun p =>
            if p.1 = s then (p.1, editFirstMatch p.2 oq oa u nq na nts) else p)
      from rfl,
      show (p :: t : Store) = [p] ++ t from rfl]
    rw [storePairs, storePairs, List.flatMap_append, List.flatMap_append,
      List.map_append, List.map_append]
    refine congrArg₂ (· ++ ·) ?_ ih
    by_cases hp : p.1 = s
    · rw [if_pos hp]
      simp only [List.flatMap_cons, List.flatMap_nil, List.append_nil,
        List.map_map]
      exact editFirstMatch_createdBy p.2 oq oa u nq na nts
    · rw [if_neg hp]

/-! ## Claims -/

/-- C1: for every store state and every logged-in username, the visible
data computed by `get_user_data` (the owner filter behind listing, search
and export) contains a (subject, entry) pair exactly when the store holds
that pair and the entry's `created_by` equals the username: no entry of
any other user ever appears, even for shared subject names, and every
entry owned by the user appears. -/
theorem get_user_data_visibility (store : Store) (u s : Str) (e : QAEntry) :
    (s, e) ∈ storePairs (get_user_data store u) ↔
      (s, e) ∈ storePairs store ∧ e.created_by = u := by
  rw [storePairs_get_user_data, List.mem_filter]
  simp

/-- C2: `verify_user` returns true iff the username is present in the user
store and the stored password hash equals the hash of the supplied
password; in particular it is false for an unknown username and false
when the stored hash differs from the hash of the supplied password, for
any store state and any hash function. -/
theorem verify_user_spec (hashF : Str → Str) (users : Users)
    (u p : Str) :
    (verify_user hashF users u p = true ↔
      ∃ r, lookupKey users u = some r ∧ r.password = hashF p) ∧
    (lookupKey users u = none → verify_user hashF users u p = false) ∧
    (∀ r, lookupKey users u = some r → r.password ≠ hashF p →
      verify_user hashF users u p = false) := by
  unfold verify_user
  cases h : lookupKey users u <;> simp [h]

/-- Witness for C2 at a concrete store: wrong password and unknown
username are both rejected, the right password is accepted. -/
theorem verify_user_spec_witness :
    verify_user (fun s => s)
        [("alice".toList, ⟨"pw".toList, none, "t0".toList⟩)]
        ("alice".toList) ("xx".toList) = false ∧
    verify_user (fun s => s)
        [("alice".toList, ⟨"pw".toList, none, "t0".toList⟩)]
        ("bob".toList) ("pw".toList) = false ∧
    verify_user (fun s => s)
        [("alice".toList, ⟨"pw".toList, none, "t0".toList⟩)]
        ("alice".toList) ("pw".toList) = true :=
  ⟨(verify_user_spec (fun s => s) _ _ _).2.2
      ⟨"pw".toList, none, "t0".toList⟩ (by decide) (by decide),
   (verify_user_spec (fun s => s) _ _ _).2.1 (by decide),
   (verify_user_spec (fun s => s) _ _ _).1.mpr
      ⟨⟨"pw".toList, none, "t0".toList⟩, by decide, by decide⟩⟩

/-- C3: when the username is already a key of the user store,
`register_user` returns false and the store — every existing record
included — is exactly as before; when the username is absent it returns
true and the store gains the record with the hashed password, the email
and the creation timestamp. -/
theorem register_user_spec (hashF : Str → Str) (now : Str) (users : Users)
    (u p : Str) (em : Option Str) :
    ((lookupKey users u).isSome →
      register_user hashF now users u p em = (false, users)) ∧
    (lookupKey users u = none →
      register_user hashF now users u p em =
        (true, users ++ [(u, ⟨hashF p, em, now⟩)])) := by
  unfold register_user
  cases h : lookupKey users u <;> simp [h]

/-- Witness for C3: registering `alice` twice fails and keeps her record
intact; registering the fresh `bob` succeeds and appends his record. -/
theorem register_user_spec_witness :
    register_user (fun s => s) ("now".toList)
        [("alice".toList, ⟨"pw".toList, none, "t0".toList⟩)]
        ("alice".toList) ("other".toList) none =
      (false, [("alice".toList, ⟨"pw".toList, none, "t0".toList⟩)]) ∧
    register_user (fun s => s) ("now".toList)
        [("alice".toList, ⟨"pw".toList, none, "t0".toList⟩)]
        ("bob".toList) ("secret".toList) (some ("b@x".toList)) =
      (true, [("alice".toList, ⟨"pw".toList, none, "t0".toList⟩),
              ("bob".toList, ⟨"secret".toList, some ("b@x".toList),
                "now".toList⟩)]) :=
  ⟨(register_user_spec (fun s => s) _ _ _ _ _).1 (by decide),
   (register_user_spec (fun s => s) _ _ _ _ _).2 (by decide)⟩

/-- C4: when the selected subject's list splits as a clean prefix, a first
matching entry and a tail, the delete handler removes exactly that first
match: the subject's list becomes prefix ++ tail, its length drops by
exactly one (even when the tail holds further identical matches), and
every other subject's list is untouched. -/
theorem delete_qa_removes_first (store : Store) (s q a u : Str)
    (l pre post : List QAEntry) (m : QAEntry)
    (hl : lookupKey store s = some l) (hsplit : l = pre ++ m :: post)
    (hpre : ∀ e ∈ pre, matchesEntry e q a u = false)
    (hm : matchesEntry m q a u = true) :
    lookupKey (delete_qa store s q a u) s = some (pre ++ post) ∧
    (pre ++ post).length + 1 = l.length ∧
    (∀ s', s' ≠ s → lookupKey (delete_qa store s q a u) s' =
      lookupKey store s') := by
  refine ⟨?_, ?_, ?_⟩
  · rw [delete_qa,
      lookupKey_map_self (f := fun x => deleteFirstMatch x q a u) store s,
      hl, Option.map_some', hsplit,
      deleteFirstMatch_split pre post m q a u hpre hm]
  · simp [hsplit]
    omega
  · intro s' hs'
    rw [delete_qa,
      lookupKey_map_other (f := fun x => deleteFirstMatch x q a u) store hs']

/-- Witness for C4: with two identical matching entries under `math`,
delete removes only the first; the length drops from 2 to 1 and the other
subject is untouched. -/
theorem delete_qa_removes_first_witness :
    lookupKey (delete_qa
        [("math".toList, [⟨"q".toList, "a".toList, "t1".toList, "alice".toList⟩,
                          ⟨"q".toList, "a".toList, "t2".toList, "alice".toList⟩]),
         ("cs".toList, [⟨"q".toList, "a".toList, "t3".toList, "alice".toList⟩])]
        ("math".toList) ("q".toList) ("a".toList) ("alice".toList))
      ("math".toList) =
      some [⟨"q".toList, "a".toList, "t2".toList, "alice".toList⟩] ∧
    ([⟨"q".toList, "a".toList, "t2".toList, "alice".toList⟩] :
      List QAEntry).length + 1 =
      ([⟨"q".toList, "a".toList, "t1".toList, "alice".toList⟩,
        ⟨"q".toList, "a".toList, "t2".toList, "alice".toList⟩] :
        List QAEntry).length := by
  have h := delete_qa_removes_first
    [("math".toList, [⟨"q".toList, "a".toList, "t1".toList, "alice".toList⟩,
                      ⟨"q".toList, "a".toList, "t2".toList, "alice".toList⟩]),
     ("cs".toList, [⟨"q".toList, "a".toList, "t3".toList, "alice".toList⟩])]
    ("math".toList) ("q".toList) ("a".toList) ("alice".toList)
    [⟨"q".toList, "a".toList, "t1".toList, "alice".toList⟩,
     ⟨"q".toList, "a".toList, "t2".toList, "alice".toList⟩]
    [] [⟨"q".toList, "a".toList, "t2".toList, "alice".toList⟩]
    (⟨"q".toList, "a".toList, "t1".toList, "alice".toList⟩)
    (by decide) (by decide) (by decide) (by decide)
  exact ⟨h.1, h.2.1⟩

/-- C9: delete never prunes a subject: the subject keys of the store, and
which keys are present, are exactly as before the delete — even when the
deleted entry was the subject's last one. -/
theorem delete_qa_preserves_subject_keys (store : Store) (s q a u : Str) :
    (delete_qa store s q a u).map Prod.fst = store.map Prod.fst ∧
    ∀ s', (lookupKey (delete_qa store s q a u) s').isSome =
      (lookupKey store s').isSome := by
  constructor
  · rw [delete_qa, List.map_map]
    refine List.map_congr_left fun p _ => ?_
    by_cases hp : p.1 = s <;> simp [hp]
  · intro s'
    by_cases hs : s' = s
    · subst hs
      rw [delete_qa,
        lookupKey_map_self (f := fun x => deleteFirstMatch x q a u) store s']
      cases lookupKey store s' <;> rfl
    · rw [delete_qa,
        lookupKey_map_other (f := fun x => deleteFirstMatch x q a u) store hs]

/-- C5: the edit handler scans the subject's list for the first entry
matching the old (question, answer, creator) triple and updates its
question, answer and timestamp in place, keeping its position (the prefix
and tail around it are untouched); when no entry of the subject matches,
the whole store is left unchanged. -/
theorem edit_qa_spec (store : Store) (s oq oa u nq na nts : Str) :
    (∀ l pre post m, lookupKey store s = some l → l = pre ++ m :: post →
      (∀ e ∈ pre, matchesEntry e oq oa u = false) →
      matchesEntry m oq oa u = true →
      lookupKey (edit_qa store s oq oa u nq na nts) s =
        some (pre ++ editEntry m nq na nts :: post) ∧
      (∀ s', s' ≠ s → lookupKey (edit_qa store s oq oa u nq na nts) s' =
        lookupKey store s')) ∧
    ((store.map Prod.fst).Nodup → ∀ l, lookupKey store s = some l →
      (∀ e ∈ l, matchesEntry e oq oa u = false) →
      edit_qa store s oq oa u nq na nts = store) := by
  constructor
  · intro l pre post m hl hsplit hpre hm
    constructor
    · rw [edit_qa,
        lookupKey_map_self (f := fun x => editFirstMatch x oq oa u nq na nts)
          store s,
        hl, Option.map_some', hsplit,
        editFirstMatch_split pre post m oq oa u nq na nts hpre hm]
    · intro s' hs'
      rw [edit_qa,
        lookupKey_map_other (f := fun x => editFirstMatch x oq oa u nq na nts)
          store hs']
  · intro hnd l hl h
    exact edit_qa_nomatch store s oq oa u nq na nts hnd l hl h

/-- Witness for C5: editing the second of three entries updates exactly it
in place, and editing with a triple nothing matches leaves the store
equal. -/
theorem edit_qa_spec_witness :
    lookupKey (edit_qa
        [("math".toList,
          [⟨"q0".toList, "a0".toList, "t0".toList, "alice".toList⟩,
           ⟨"q1".toList, "a1".toList, "t1".toList, "alice".toList⟩,
           ⟨"q2".toList, "a2".toList, "t2".toList, "alice".toList⟩])]
        ("math".toList) ("q1".toList) ("a1".toList) ("alice".toList)
        ("nq".toList) ("na".toList) ("nt".toList)) ("math".toList) =
      some [⟨"q0".toList, "a0".toList, "t0".toList, "alice".toList⟩,
            ⟨"nq".toList, "na".toList, "nt".toList, "alice".toList⟩,
            ⟨"q2".toList, "a2".toList, "t2".toList, "alice".toList⟩] ∧
    edit_qa
        [("math".toList,
          [⟨"q0".toList, "a0".toList, "t0".toList, "alice".toList⟩])]
        ("math".toList) ("zz".toList) ("a0".toList) ("alice".toList)
        ("nq".toList) ("na".toList) ("nt".toList) =
      [("math".toList,
        [⟨"q0".toList, "a0".toList, "t0".toList, "alice".toList⟩])] := by
  constructor
  · exact ((edit_qa_spec
      [("math".toList,
        [⟨"q0".toList, "a0".toList, "t0".toList, "alice".toList⟩,
         ⟨"q1".toList, "a1".toList, "t1".toList, "alice".toList⟩,
         ⟨"q2".toList, "a2".toList, "t2".toList, "alice".toList⟩])]
      ("math".toList) ("q1".toList) ("a1".toList) ("alice".toList)
      ("nq".toList) ("na".toList) ("nt".toList)).1
      [⟨"q0".toList, "a0".toList, "t0".toList, "alice".toList⟩,
       ⟨"q1".toList, "a1".toList, "t1".toList, "alice".toList⟩,
       ⟨"q2".toList, "a2".toList, "t2".toList, "alice".toList⟩]
      [⟨"q0".toList, "a0".toList, "t0".toList, "alice".toList⟩]
      [⟨"q2".toList, "a2".toList, "t2".toList, "alice".toList⟩]
      (⟨"q1".toList, "a1".toList, "t1".toList, "alice".toList⟩)
      (by decide) (by decide) (by decide) (by decide)).1
  · exact (edit_qa_spec
      [("math".toList,
        [⟨"q0".toList, "a0".toList, "t0".toList, "alice".toList⟩])]
      ("math".toList) ("zz".toList) ("a0".toList) ("alice".toList)
      ("nq".toList) ("na".toList) ("nt".toList)).2
      (by decide)
      [⟨"q0".toList, "a0".toList, "t0".toList, "alice".toList⟩]
      (by decide) (by decide)

/-- C10: when the edit handler finds its first match, the updated entry
keeps the matched entry's `created_by` (only question, answer and
timestamp are assigned), the surrounding entries of the subject and every
other subject are unchanged, and the multiset of owners across the whole
store is exactly as before — editing never hands an entry to another
user. -/
theorem edit_qa_frame (store : Store) (s oq oa u nq na nts : Str)
    (l pre post : List QAEntry) (m : QAEntry)
    (hl : lookupKey store s = some l) (hsplit : l = pre ++ m :: post)
    (hpre : ∀ e ∈ pre, matchesEntry e oq oa u = false)
    (hm : matchesEntry m oq oa u = true) :
    lookupKey (edit_qa store s oq oa u nq na nts) s =
      some (pre ++ (⟨nq, na, nts, m.created_by⟩ : QAEntry) :: post) ∧
    (∀ s', s' ≠ s → lookupKey (edit_qa store s oq oa u nq na nts) s' =
      lookupKey store s') ∧
    (storePairs (edit_qa store s oq oa u nq na nts)).map
        (fun pe => pe.2.created_by) =
      (storePairs store).map (fun pe => pe.2.created_by) := by
  refine ⟨?_, ?_, storePairs_edit_createdBy store s oq oa u nq na nts⟩
  · rw [edit_qa,
      lookupKey_map_self (f := fun x => editFirstMatch x oq oa u nq na nts)
        store s,
      hl, Option.map_some', hsplit,
      editFirstMatch_split pre post m oq oa u nq na nts hpre hm]
    rfl
  · intro s' hs'
    rw [edit_qa,
      lookupKey_map_other (f := fun x => editFirstMatch x oq oa u nq na nts)
        store hs']

/-- Witness for C10: the edited entry keeps owner `alice`, the other
subject is untouched, and the owner list of the store is unchanged. -/
theorem edit_qa_frame_witness :
    lookupKey (edit_qa
        [("math".toList,
          [⟨"q0".toList, "a0".toList, "t0".toList, "alice".toList⟩]),
         ("cs".toList,
          [⟨"q1".toList, "a1".toList, "t1".toList, "bob".toList⟩])]
        ("math".toList) ("q0".toList) ("a0".toList) ("alice".toList)
        ("nq".toList) ("na".toList) ("nt".toList)) ("math".toList) =
      some [⟨"nq".toList, "na".toList, "nt".toList, "alice".toList⟩] ∧
    (storePairs (edit_qa
        [("math".toList,
          [⟨"q0".toList, "a0".toList, "t0".toList, "alice".toList⟩]),
         ("cs".toList,
          [⟨"q1".toList, "a1".toList, "t1".toList, "bob".toList⟩])]
        ("math".toList) ("q0".toList) ("a0".toList) ("alice".toList)
        ("nq".toList) ("na".toList) ("nt".toList))).map
      (fun pe => pe.2.created_by) =
      (storePairs
        [("math".toList,
          [⟨"q0".toList, "a0".toList, "t0".toList, "alice".toList⟩]),
         ("cs".toList,
          [⟨"q1".toList, "a1".toList, "t1".toList, "bob".toList⟩])]).map
      (fun pe => pe.2.created_by) := by
  have h := edit_qa_frame
    [("math".toList, [⟨"q0".toList, "a0".toList, "t0".toList, "alice".toList⟩]),
     ("cs".toList, [⟨"q1".toList, "a1".toList, "t1".toList, "bob".toList⟩])]
    ("math".toList) ("q0".toList) ("a0".toList) ("alice".toList)
    ("nq".toList) ("na".toList) ("nt".toList)
    [⟨"q0".toList, "a0".toList, "t0".toList, "alice".toList⟩]
    [] []
    (⟨"q0".toList, "a0".toList, "t0".toList, "alice".toList⟩)
    (by decide) (by decide) (by decide) (by decide)
  exact ⟨h.1, h.2.2⟩

theorem flatMap_filter_map (st : Store) (P : QAEntry → Bool) :
    (st.flatMap (fun p => (p.2.filter P).map
        (fun qa => (⟨p.1, qa.question, qa.answer, qa.timestamp⟩ : ResultRow)))) =
      ((storePairs st).filter (fun pe => P pe.2)).map
        (fun pe => ⟨pe.1, pe.2.question, pe.2.answer, pe.2.timestamp⟩) := by
  induction st with
  | nil => rfl
  | cons p t ih =>
    rw [List.flatMap_cons, storePairs_cons, List.filter_append,
      List.map_append, ih]
    refine congrArg₂ (· ++ ·) ?_ rfl
    rw [List.filter_map, List.map_map]
    rfl

/-- C6: for every owner and non-empty term, search returns exactly the
rows of the owner's entries whose lower-cased question or answer contains
the lower-cased term, in store subject order and original list order (the
filter of the owner's (subject, entry) pairs, in order); and any term with
the same lower-casing produces the same results. -/
theorem search_qa_characterization (store : Store) (u term : Str)
    (hterm : term ≠ []) :
    search_qa store u term =
      ((storePairs store).filter
        (fun pe => decide (pe.2.created_by = u) &&
          entryMatches term pe.2)).map
        (fun pe => ⟨pe.1, pe.2.question, pe.2.answer, pe.2.timestamp⟩) ∧
    (∀ term2, lowerStr term2 = lowerStr term →
      search_qa store u term2 = search_qa store u term) := by
  constructor
  · rw [search_qa, flatMap_filter_map, storePairs_get_user_data,
      List.filter_filter]
    exact congrArg _ (List.filter_congr fun pe _ => Bool.and_comm _ _)
  · intro term2 h
    have h2 : entryMatches term2 = entryMatches term :=
      funext fun qa => by simp [entryMatches, h]
    rw [search_qa, search_qa, h2]

/-- Witness for C6 on a concrete store: the term `CLOSURE` finds exactly
alice's closure entry (not bob's, not the recursion one), and the
lower-case variant `closure` returns the same rows. -/
theorem search_qa_characterization_witness :
    search_qa
        [("cs".toList,
          [⟨"What is a closure?".toList, "fn".toList, "t1".toList,
            "alice".toList⟩,
           ⟨"closure trick".toList, "x".toList, "t2".toList, "bob".toList⟩,
           ⟨"What is recursion?".toList, "self".toList, "t3".toList,
            "alice".toList⟩])]
        ("alice".toList) ("CLOSURE".toList) =
      ((storePairs
        [("cs".toList,
          [⟨"What is a closure?".toList, "fn".toList, "t1".toList,
            "alice".toList⟩,
           ⟨"closure trick".toList, "x".toList, "t2".toList, "bob".toList⟩,
           ⟨"What is recursion?".toList, "self".toList, "t3".toList,
            "alice".toList⟩])]).filter
        (fun pe => decide (pe.2.created_by = "alice".toList) &&
          entryMatches ("CLOSURE".toList) pe.2)).map
        (fun pe => ⟨pe.1, pe.2.question, pe.2.answer, pe.2.timestamp⟩) ∧
    search_qa
        [("cs".toList,
          [⟨"What is a closure?".toList, "fn".toList, "t1".toList,
            "alice".toList⟩,
           ⟨"closure trick".toList, "x".toList, "t2".toList, "bob".toList⟩,
           ⟨"What is recursion?".toList, "self".toList, "t3".toList,
            "alice".toList⟩])]
        ("alice".toList) ("closure".toList) =
      search_qa
        [("cs".toList,
          [⟨"What is a closure?".toList, "fn".toList, "t1".toList,
            "alice".toList⟩,
           ⟨"closure trick".toList, "x".toList, "t2".toList, "bob".toList⟩,
           ⟨"What is recursion?".toList, "self".toList, "t3".toList,
            "alice".toList⟩])]
        ("alice".toList) ("CLOSURE".toList) :=
  ⟨(search_qa_characterization _ _ _ (by decide)).1,
   (search_qa_characterization _ _ _ (by decide)).2
     ("closure".toList) (by decide)⟩

/-! ## JSON round-trip lemmas -/

theorem stripPre_append (p s : Str) : stripPre p (p ++ s) = some s := by
  induction p with
  | nil => rfl
  | cons c p ih => simp [stripPre, ih]

theorem stripPre_cons (c : Char) (s : Str) : stripPre [c] (c :: s) = some s := by
  simp [stripPre]

theorem escStr_cons (c : Char) (v : Str) :
    escStr (c :: v) = escChar c ++ escStr v := by
  simp [escStr]

theorem parseStrBody_esc (v R : Str) :
    parseStrBody (escStr v ++ (quoteC :: R)) = some (v, R) := by
  induction v with
  | nil =>
    rw [show escStr [] = [] from rfl, List.nil_append, parseStrBody.eq_def]
    simp
  | cons c v ih =>
    rw [escStr_cons]
    by_cases hc : c = quoteC ∨ c = backC
    · have hbq : ¬ backC = quoteC := by decide
      rw [show escChar c = [backC, c] from by simp [escChar, hc]]
      rw [List.cons_append, List.cons_append, parseStrBody.eq_def]
      simp [hbq, ih]
    · push_neg at hc
      rw [show escChar c = [c] from by simp [escChar, hc.1, hc.2]]
      rw [List.cons_append, List.nil_append, parseStrBody.eq_def]
      simp [hc.1, hc.2, ih]

theorem parseStr_ser (v R : Str) :
    parseStr (serStr v ++ R) = some (v, R) := by
  have h : serStr v ++ R = quoteC :: (escStr v ++ (quoteC :: R)) := by
    simp [serStr]
  rw [h]
  simp [parseStr, parseStrBody_esc]

theorem parseEntry_ser (e : QAEntry) (R : Str) :
    parseEntry (serEntry e ++ R) = some (e, R) := by
  simp [parseEntry, serEntry, List.append_assoc, stripPre_append,
    parseStr_ser, stripPre_cons]

theorem serEntry_shape (e : QAEntry) :
    serEntry e = lbrace :: (serStr keyQuestion ++ [colonC] ++
      serStr e.question ++ segA ++ serStr e.answer ++ segT ++
      serStr e.timestamp ++ segC ++ serStr e.created_by ++ [rbrace]) := by
  simp [serEntry, segQ, List.append_assoc]

theorem serEntriesTail_single (e : QAEntry) :
    serEntriesTail [e] = serEntry e := rfl

theorem serEntriesTail_cons2 (e e2 : QAEntry) (t2 : List QAEntry) :
    serEntriesTail (e :: e2 :: t2) =
      serEntry e ++ [commaC] ++ serEntriesTail (e2 :: t2) := rfl

theorem serStoreTail_single (p : Str × List QAEntry) :
    serStoreTail [p] = serStr p.1 ++ [colonC] ++ serEntryList p.2 := rfl

theorem serStoreTail_cons2 (p p2 : Str × List QAEntry) (t2 : Store) :
    serStoreTail (p :: p2 :: t2) =
      serStr p.1 ++ [colonC] ++ serEntryList p.2 ++ [commaC] ++
        serStoreTail (p2 :: t2) := rfl

theorem serEntriesTail_shape (e : QAEntry) (t : List QAEntry) :
    ∃ u, serEntriesTail (e :: t) = lbrace :: u := by
  cases t with
  | nil => exact ⟨_, by rw [serEntriesTail_single, serEntry_shape]⟩
  | cons e2 t2 =>
    exact ⟨_, by rw [serEntriesTail_cons2, serEntry_shape, List.cons_append,
      List.cons_append]⟩

theorem parseEntriesTail_ser (l : List QAEntry) (R : Str) :
    ∀ fuel, l ≠ [] → l.length ≤ fuel →
      parseEntriesTail fuel (serEntriesTail l ++ (rbrack :: R)) =
        some (l, R) := by
  induction l with
  | nil => intro fuel h _; exact absurd rfl h
  | cons e t ih =>
    intro fuel _ hlen
    cases fuel with
    | zero => simp at hlen
    | succ fuel =>
      cases t with
      | nil =>
        have h1 : serEntriesTail [e] ++ (rbrack :: R) =
            serEntry e ++ (rbrack :: R) := by
          rw [serEntriesTail_single]
        rw [h1]
        simp [parseEntriesTail, parseEntry_ser]
      | cons e2 t2 =>
        have h1 : serEntriesTail (e :: e2 :: t2) ++ (rbrack :: R) =
            serEntry e ++
              (commaC :: (serEntriesTail (e2 :: t2) ++ (rbrack :: R))) := by
          rw [serEntriesTail_cons2]
          simp [List.append_assoc]
        rw [h1]
        have hcr : ¬ commaC = rbrack := by decide
        have hrec := ih fuel (List.cons_ne_nil _ _) (by
          simp only [List.length_cons] at hlen ⊢
          omega)
        simp [parseEntriesTail, parseEntry_ser, hcr, hrec]

theorem parseEntryList_ser (l : List QAEntry) (R : Str) (fuel : Nat)
    (hlen : l.length ≤ fuel) :
    parseEntryList fuel (serEntryList l ++ R) = some (l, R) := by
  cases l with
  | nil =>
    have h1 : serEntryList [] ++ R = lbrack :: rbrack :: R := by
      simp [serEntryList, serEntriesTail]
    rw [h1]
    simp [parseEntryList]
  | cons e t =>
    obtain ⟨u, hu⟩ := serEntriesTail_shape e t
    have h1 : serEntryList (e :: t) ++ R =
        lbrack :: lbrace :: (u ++ (rbrack :: R)) := by
      simp [serEntryList, hu, List.append_assoc]
    rw [h1]
    have hlb : ¬ lbrace = rbrack := by decide
    have h2 : lbrace :: (u ++ (rbrack :: R)) =
        serEntriesTail (e :: t) ++ (rbrack :: R) := by
      simp [hu]
    simp only [parseEntryList, hlb, if_true, if_false, reduceIte]
    rw [h2]
    exact parseEntriesTail_ser (e :: t) R fuel (List.cons_ne_nil _ _) hlen

theorem serEntry_length_pos (e : QAEntry) : 1 ≤ (serEntry e).length := by
  rw [serEntry_shape]
  simp

theorem length_le_serEntriesTail (l : List QAEntry) :
    l.length ≤ (serEntriesTail l).length + 1 := by
  induction l with
  | nil => simp [serEntriesTail]
  | cons e t ih =>
    cases t with
    | nil => simp [serEntriesTail]
    | cons e2 t2 =>
      have h := serEntry_length_pos e
      rw [serEntriesTail_cons2]
      simp only [List.length_append, List.length_cons, List.length_nil]
        at ih ⊢
      omega

theorem length_le_serEntryList (l : List QAEntry) :
    l.length ≤ (serEntryList l).length := by
  have h := length_le_serEntriesTail l
  simp only [serEntryList, List.length_append, List.length_cons,
    List.length_nil]
  omega

theorem serStr_length (s : Str) :
    (serStr s).length = (escStr s).length + 2 := by
  simp [serStr]

theorem serStoreTail_shape (p : Str × List QAEntry) (t : Store) :
    ∃ u, serStoreTail (p :: t) = quoteC :: u := by
  cases t with
  | nil =>
    exact ⟨_, by rw [serStoreTail_single, serStr, List.cons_append,
      List.cons_append]⟩
  | cons p2 t2 =>
    exact ⟨_, by rw [serStoreTail_cons2, serStr, List.cons_append,
      List.cons_append, List.cons_append, List.cons_append]⟩

theorem length_le_serStoreTail (st : Store) :
    st.length ≤ (serStoreTail st).length := by
  induction st with
  | nil => simp [serStoreTail]
  | cons p t ih =>
    cases t with
    | nil =>
      rw [serStoreTail_single]
      simp only [List.length_append, serStr_length, List.length_cons,
        List.length_nil]
      omega
    | cons p2 t2 =>
      rw [serStoreTail_cons2]
      simp only [List.length_append, serStr_length, List.length_cons,
        List.length_nil] at ih ⊢
      omega

theorem parseStoreTail_ser (st : Store) (R : Str) :
    ∀ fuel, st ≠ [] → st.length ≤ fuel →
      parseStoreTail fuel (serStoreTail st ++ (rbrace :: R)) =
        some (st, R) := by
  induction st with
  | nil => intro fuel h _; exact absurd rfl h
  | cons p t ih =>
    intro fuel _ hlen
    cases fuel with
    | zero => simp at hlen
    | succ fuel =>
      cases t with
      | nil =>
        have h1 : serStoreTail [p] ++ (rbrace :: R) =
            serStr p.1 ++
              (colonC :: (serEntryList p.2 ++ (rbrace :: R))) := by
          rw [serStoreTail_single]
          simp [List.append_assoc]
        rw [h1]
        have hfuel : p.2.length ≤
            (serEntryList p.2 ++ (rbrace :: R)).length + 1 := by
          have h := length_le_serEntryList p.2
          simp only [List.length_append]
          omega
        have hpl := parseEntryList_ser p.2 (rbrace :: R) _ hfuel
        simp only [List.length_append, List.length_cons] at hpl
        simp [parseStoreTail, parseStr_ser, hpl]
      | cons p2 t2 =>
        have h1 : serStoreTail (p :: p2 :: t2) ++ (rbrace :: R) =
            serStr p.1 ++ (colonC :: (serEntryList p.2 ++
              (commaC :: (serStoreTail (p2 :: t2) ++ (rbrace :: R))))) := by
          rw [serStoreTail_cons2]
          simp [List.append_assoc]
        rw [h1]
        have hfuel : p.2.length ≤
            (serEntryList p.2 ++
              (commaC :: (serStoreTail (p2 :: t2) ++ (rbrace :: R)))).length
              + 1 := by
          have h := length_le_serEntryList p.2
          simp only [List.length_append]
          omega
        have hpl := parseEntryList_ser p.2
          (commaC :: (serStoreTail (p2 :: t2) ++ (rbrace :: R))) _ hfuel
        simp only [List.length_append, List.length_cons] at hpl
        have hcr : ¬ commaC = rbrace := by decide
        have hrec := ih fuel (List.cons_ne_nil _ _) (by
          simp only [List.length_cons] at hlen ⊢
          omega)
        simp [parseStoreTail, parseStr_ser, hpl, hcr, hrec]

theorem parseStore_serializeStore (st : Store) :
    parseStore (serializeStore st) = some st := by
  cases st with
  | nil => rfl
  | cons p t =>
    obtain ⟨u, hu⟩ := serStoreTail_shape p t
    have h1 : serializeStore (p :: t) = lbrace :: quoteC :: (u ++ [rbrace]) := by
      simp [serializeStore, hu, List.append_assoc]
    have hq : ¬ quoteC = rbrace := by decide
    have h2 : quoteC :: (u ++ [rbrace]) =
        serStoreTail (p :: t) ++ (rbrace :: ([] : Str)) := by
      simp [hu]
    have hfuel : (p :: t).length ≤ (u ++ [rbrace]).length + 2 := by
      have h := length_le_serStoreTail (p :: t)
      rw [hu] at h
      simp only [List.length_append, List.length_cons] at h ⊢
      omega
    have h3 := parseStoreTail_ser (p :: t) [] ((u ++ [rbrace]).length + 2)
      (List.cons_ne_nil _ _) hfuel
    rw [← h2] at h3
    simp only [List.length_append, List.length_cons, List.length_nil] at h3
    rw [parseStore, h1]
    simp [parseStoreOuter, hq, h3]

/-- C7: serializing any subject-to-entries mapping with the structured-text
(JSON) export and re-parsing the output yields the original mapping: the
same subjects, the same entries per subject in the same order, with all
four entry fields unchanged. -/
theorem json_export_roundtrip (st : Store) :
    parseStore (json_export st) = some st :=
  parseStore_serializeStore st

/-! ## PDF, Markdown and CSV export lemmas -/

theorem readEntryCells_entry (qa : QAEntry) :
    readEntryCells (PdfCell.textCell (qLinePre ++ qa.question))
      (PdfCell.textCell (aLinePre ++ qa.answer))
      (PdfCell.textCell (dLinePre ++ qa.timestamp)) PdfCell.spacer =
      some (qa.question, qa.answer, qa.timestamp) := by
  simp [readEntryCells, stripPre_append]

theorem readEntryCells_subj (s : Str) (c2 c3 c4 : PdfCell) :
    readEntryCells (PdfCell.subjCell s) c2 c3 c4 = none := by
  cases c2 <;> cases c3 <;> cases c4 <;> rfl

theorem readEntries_entryCells (l : List QAEntry) (rest : List PdfCell)
    (hrest : rest = [] ∨ ∃ s r, rest = PdfCell.subjCell s :: r) :
    readEntries (l.flatMap entryCells ++ rest) =
      (l.map (fun qa => (qa.question, qa.answer, qa.timestamp)), rest) := by
  induction l with
  | nil =>
    simp only [List.flatMap_nil, List.nil_append, List.map_nil]
    rcases hrest with h | ⟨s, r, h⟩
    · subst h; rfl
    · subst h
      cases r with
      | nil => rfl
      | cons c1 r1 =>
        cases r1 with
        | nil => rfl
        | cons c2 r2 =>
          cases r2 with
          | nil => rfl
          | cons c3 r3 => simp [readEntries, readEntryCells_subj]
  | cons qa l ih =>
    simp only [List.flatMap_cons, entryCells, List.cons_append,
      List.append_assoc]
    simp [readEntries, readEntryCells_entry, ih]

theorem readSubjects_flatMap (sel : Store) :
    ∀ fuel, sel.length ≤ fuel →
      readSubjects fuel (sel.flatMap
        (fun p => PdfCell.subjCell p.1 :: p.2.flatMap entryCells)) =
        projStore sel := by
  induction sel with
  | nil =>
    intro fuel _
    cases fuel <;> rfl
  | cons p t ih =>
    intro fuel hlen
    cases fuel with
    | zero => simp at hlen
    | succ fuel =>
      simp only [List.flatMap_cons, List.cons_append]
      have hrest : t.flatMap
          (fun p => PdfCell.subjCell p.1 :: p.2.flatMap entryCells) = [] ∨
          ∃ s r, t.flatMap
            (fun p => PdfCell.subjCell p.1 :: p.2.flatMap entryCells) =
            PdfCell.subjCell s :: r := by
        cases t with
        | nil => exact Or.inl rfl
        | cons p2 t2 =>
          exact Or.inr ⟨p2.1, p2.2.flatMap entryCells ++ t2.flatMap
            (fun p => PdfCell.subjCell p.1 :: p.2.flatMap entryCells),
            by simp⟩
      have hread := readEntries_entryCells p.2 _ hrest
      have hih := ih fuel (by
        simp only [List.length_cons] at hlen
        omega)
      simp [readSubjects, hread, hih, projStore]

theorem length_le_flatMap_subj (sel : Store) :
    sel.length ≤ (sel.flatMap
      (fun p => PdfCell.subjCell p.1 :: p.2.flatMap entryCells)).length := by
  induction sel with
  | nil => simp
  | cons p t ih =>
    simp only [List.flatMap_cons, List.cons_append, List.length_append,
      List.length_cons]
    omega

theorem pdfExtract_generate (sel : Store) (user : Str) :
    pdfExtract (generate_pdf sel user) = projStore sel := by
  have hb := length_le_flatMap_subj sel
  rw [generate_pdf, pdfExtract]
  exact readSubjects_flatMap sel _ (by
    simp only [List.length_cons]
    omega)

theorem csv_rows_eq (ed : Store) :
    csv_rows ed = (storePairs ed).map
      (fun pe => ⟨pe.1, pe.2.question, pe.2.answer, pe.2.timestamp⟩) := by
  rw [csv_rows, storePairs, List.map_flatMap]
  simp only [List.map_map]
  rfl

theorem foldl_append_eq {α : Type} (l : List α) (f : α → Str) :
    ∀ init : Str, l.foldl (fun acc x => acc ++ f x) init =
      init ++ (l.map f).flatten := by
  induction l with
  | nil => intro init; simp
  | cons x t ih =>
    intro init
    simp only [List.foldl_cons, List.map_cons, List.flatten_cons, ih,
      List.append_assoc]

theorem md_content_eq (user : Str) (sel : Store) :
    md_content user sel = mdTitle user ++
      (sel.map (fun p =>
        mdSubjHeader p.1 ++ (p.2.map mdEntryBlock).flatten)).flatten := by
  suffices h : ∀ init : Str, sel.foldl
      (fun acc p => p.2.foldl (fun acc2 qa => acc2 ++ mdEntryBlock qa)
        (acc ++ mdSubjHeader p.1)) init =
      init ++ (sel.map (fun p =>
        mdSubjHeader p.1 ++ (p.2.map mdEntryBlock).flatten)).flatten by
    rw [md_content]
    exact h (mdTitle user)
  induction sel with
  | nil => intro init; simp
  | cons p t ih =>
    intro init
    simp only [List.foldl_cons, List.map_cons, List.flatten_cons]
    rw [foldl_append_eq p.2 mdEntryBlock, ih]
    simp [List.append_assoc]

/-- C8: for every username, visible map and subject selection, each export
format covers the selected data exactly: the CSV rows are exactly one row
per (subject, entry) pair of the selection, in order; the JSON payload
parses back to exactly the selected mapping; the PDF cell stream parses
back to exactly the subject-grouped (question, answer, date) projection of
the selection; and the Markdown document is the title followed by, per
selected subject, its heading and exactly its entries' blocks in order —
so no entry is duplicated or omitted, and JSON, PDF and Markdown keep the
subject grouping. -/
theorem export_formats_complete (user : Str) (ud : Store)
    (selected : List Str) :
    csv_rows (export_selection ud selected) =
      (storePairs (export_selection ud selected)).map
        (fun pe => ⟨pe.1, pe.2.question, pe.2.answer, pe.2.timestamp⟩) ∧
    parseStore (json_export (export_selection ud selected)) =
      some (export_selection ud selected) ∧
    pdfExtract (generate_pdf (export_selection ud selected) user) =
      projStore (export_selection ud selected) ∧
    md_content user (export_selection ud selected) =
      mdTitle user ++ ((export_selection ud selected).map (fun p =>
        mdSubjHeader p.1 ++ (p.2.map mdEntryBlock).flatten)).flatten :=
  ⟨csv_rows_eq _, parseStore_serializeStore _, pdfExtract_generate _ user,
   md_content_eq user _⟩

end QnaApp
